import Mathlib

/-!
Shallow embedding of the schema migration runner of `src/scripts/migrate.js`
(class `MigrationRunner`), together with theorems settling the specification
claims about it.

Modelling conventions:
* The database is a `DBState σ`: the `migrations` ledger table is the `ledger`
  field (a list of rows in insertion order), everything else the scripts touch
  is an opaque application state `app : σ`.
* Executing an SQL script text is an opaque parameter
  `runSql : String → σ → Option σ`; `none` models a raised SQL error.
* The migrations directory is a `Dir`: `listing` models `fs.readdirSync`,
  `read` models `fs.readFileSync` on a name from the listing.
* The md5 checksum (`crypto.createHash('md5')`) is an opaque parameter
  `hash : String → String`.
* A `BEGIN`/work/`COMMIT` block with `ROLLBACK` on error is modelled by
  computing the transaction's effects on a working copy of the state and
  publishing them only on the success path; on the error path the function
  returns the caller's state unchanged, paired with `some` error
  (the JS `throw error` after `await client.query('ROLLBACK')`).
* `CURRENT_TIMESTAMP` (the `executed_at` default of the ledger table) is an
  opaque parameter `now : Nat`.
* JavaScript string comparison (`Array.prototype.sort()` with no comparator,
  and Postgres `ORDER BY version`) is lexicographic; it is embedded as the
  executable `listCharLe` on the character lists and related to Mathlib's
  `String` linear order by `strLe_iff`.
-/

namespace Migrate

/-- A migration definition as built by `getMigrationFiles` (the registry).
The JS object also carries `filePath` (the absolute path `path.join` of the
directory and `file`); paths are not modelled, `file` stands for both. -/
structure MigrationDef where
  version : String
  name : String
  file : String
  content : String
  checksum : String
deriving Repr, DecidableEq, Inhabited

/-- A row of the `migrations` ledger table
(`000_create_migrations_table.sql`). -/
structure LedgerEntry where
  version : String
  name : String
  executedAt : Nat
  checksum : String
deriving Repr, DecidableEq, Inhabited

/-- The migrations directory: `listing` is `fs.readdirSync(migrationsPath)`,
`read` is `fs.readFileSync` of a listed name. -/
structure Dir where
  listing : List String
  read : String → String

/-- Database state: the ledger table plus the opaque application schema state
that migration scripts act on. -/
structure DBState (σ : Type) where
  ledger : List LedgerEntry
  app : σ
deriving Repr, DecidableEq

/-- Errors thrown by the runner (each is a JS `throw` site or a Postgres
error surfaced by the driver). -/
inductive MigErr where
  /-- An SQL script raised an error inside a transaction. -/
  | scriptFailed (version : String)
  /-- The ledger `INSERT` violated the `UNIQUE` constraint on `version`. -/
  | duplicateVersion (version : String)
  /-- `No rollback file found for migration ${version}` in
  `rollbackMigration`. -/
  | noRollbackFile (version : String)
  /-- `Migration ${version} not found` in `rollback`. -/
  | migrationNotFound (version : String)
deriving Repr, DecidableEq

/-! ## String utilities (JS string primitives on character lists) -/

/-- `pat` is a leading block of `l` (JS `String.prototype.startsWith`). -/
def listStarts : List Char → List Char → Bool
  | [], _ => true
  | _ :: _, [] => false
  | a :: as, b :: bs => a == b && listStarts as bs

/-- `pat` is a trailing block of `l` (used for the `\.sql$` anchor). -/
def listEnds (pat l : List Char) : Bool :=
  listStarts pat.reverse l.reverse

/-- `pat` occurs contiguously somewhere in `l`
(JS `String.prototype.includes`). -/
def hasSub (pat : List Char) : List Char → Bool
  | [] => listStarts pat []
  | l@(_ :: t) => listStarts pat l || hasSub pat t

/-- Remove the first occurrence of `pat` from `l`
(JS `String.prototype.replace` with a string pattern). -/
def removeFirst (pat : List Char) : List Char → List Char
  | [] => []
  | l@(h :: t) => if listStarts pat l then l.drop pat.length else h :: removeFirst pat t

/-- Lexicographic comparison of character lists: the order JS
`Array.prototype.sort()` uses on strings, also standing in for Postgres
`ORDER BY version` (all versions are ASCII digit strings). -/
def listCharLe : List Char → List Char → Bool
  | [], _ => true
  | _ :: _, [] => false
  | a :: as, b :: bs => if a < b then true else if b < a then false else listCharLe as bs

/-- Executable string comparison; `strLe_iff` relates it to `String` `≤`. -/
def strLe (a b : String) : Bool :=
  listCharLe a.data b.data

instance decStrLeRel : DecidableRel (fun a b : String => strLe a b = true) :=
  fun a b => inferInstanceAs (Decidable (strLe a b = true))

/-! ## MigrationRegistry: `getMigrationFiles` -/

/-- The filename filter of `getMigrationFiles`:
`file.match(/^\d{3}_.*\.sql$/)` — three decimal digits, an underscore,
anything, then the suffix `.sql`. -/
def matchesMigPattern (f : String) : Bool :=
  match f.data with
  | a :: b :: c :: '_' :: rest =>
    a.isDigit && b.isDigit && c.isDigit && listEnds ".sql".data rest
  | _ => false

/-- Full acceptance test of `getMigrationFiles`:
`file.match(/^\d{3}_.*\.sql$/) && !file.includes('rollback')`. -/
def acceptsMigrationFile (f : String) : Bool :=
  matchesMigPattern f && !hasSub "rollback".data f.data

/-- `file.split('_')[0]`: the characters before the first underscore. -/
def versionOf (f : String) : String :=
  ⟨f.data.takeWhile (fun c => c ≠ '_')⟩

/-- `file.replace(/^\d{3}_/, '')`: drop a leading three-digits-plus-underscore
block when present. -/
def stripNumAndUnderscore (f : List Char) : List Char :=
  match f with
  | a :: b :: c :: '_' :: rest => if a.isDigit && b.isDigit && c.isDigit then rest else f
  | _ => f

/-- `file.replace(/^\d{3}_/, '').replace('.sql', '')`. -/
def nameOf (f : String) : String :=
  ⟨removeFirst ".sql".data (stripNumAndUnderscore f.data)⟩

/-- The record built for one accepted file in `getMigrationFiles`. -/
def mkDef (hash : String → String) (dir : Dir) (f : String) : MigrationDef :=
  let content := dir.read f
  { version := versionOf f, name := nameOf f, file := f,
    content := content, checksum := hash content }

/-- `getMigrationFiles()`: filter the directory listing, sort the surviving
names (JS default lexicographic sort), and build one definition per file. -/
def getMigrationFiles (hash : String → String) (dir : Dir) : List MigrationDef :=
  ((dir.listing.filter acceptsMigrationFile).insertionSort
      (fun a b => strLe a b = true)).map (mkDef hash dir)

/-! ## MigrationLedger: `getExecutedMigrations` -/

instance decLedgerLeRel :
    DecidableRel (fun a b : LedgerEntry => strLe a.version b.version = true) :=
  fun a b => inferInstanceAs (Decidable (strLe a.version b.version = true))

/-- `getExecutedMigrations()`: `SELECT version, name, executed_at, checksum
FROM migrations ORDER BY version`. -/
def getExecutedMigrations (db : DBState σ) : List LedgerEntry :=
  db.ledger.insertionSort (fun a b => strLe a.version b.version = true)

/-- `ensureMigrationsTable()`: runs `000_create_migrations_table.sql`
(`CREATE TABLE IF NOT EXISTS migrations ...`). The model presumes the ledger
table exists (it is the `ledger` field), so this is the identity. -/
def ensureMigrationsTable (db : DBState σ) : DBState σ :=
  db

/-! ## TransactionExecutor: `executeMigration` and `rollbackMigration` -/

/-- The ledger row inserted by `executeMigration`
(`INSERT INTO migrations (version, name, checksum) VALUES ($1, $2, $3)`,
`executed_at` filled by its `CURRENT_TIMESTAMP` default). -/
def mkEntry (m : MigrationDef) (now : Nat) : LedgerEntry :=
  { version := m.version, name := m.name, executedAt := now, checksum := m.checksum }

/-- `executeMigration(migration)`: `BEGIN`; run the script; insert the ledger
row; `COMMIT` — with `ROLLBACK` and rethrow on any error. The insert fails
when the version is already present (`UNIQUE` constraint of the ledger
table). On the error path the returned state is the caller's state,
unchanged: the transaction's effects are discarded. -/
def executeMigration (runSql : String → σ → Option σ) (now : Nat)
    (m : MigrationDef) (db : DBState σ) : DBState σ × Option MigErr :=
  match runSql m.content db.app with
  | none => (db, some (.scriptFailed m.version))
  | some app2 =>
    if db.ledger.any (fun e => e.version == m.version) then
      (db, some (.duplicateVersion m.version))
    else
      ({ ledger := db.ledger ++ [mkEntry m now], app := app2 }, none)

/-- The rollback-counterpart search of `rollbackMigration`:
`file.startsWith(`${version}_`) && file.includes('rollback')`. -/
def rollbackFileFor (version f : String) : Bool :=
  listStarts (version ++ "_").data f.data && hasSub "rollback".data f.data

/-- `rollbackMigration(version)`: find the rollback counterpart files; throw
if there is none; otherwise read the first one and, in a transaction, run it
and `DELETE FROM migrations WHERE version = $1`. -/
def rollbackMigration (runSql : String → σ → Option σ) (dir : Dir)
    (version : String) (db : DBState σ) : DBState σ × Option MigErr :=
  match dir.listing.filter (rollbackFileFor version) with
  | [] => (db, some (.noRollbackFile version))
  | f :: _ =>
    match runSql (dir.read f) db.app with
    | none => (db, some (.scriptFailed version))
    | some app2 =>
      ({ ledger := db.ledger.filter (fun e => !(e.version == version)), app := app2 }, none)

/-! ## Orchestrator: `migrate`, `rollback`, `status` -/

/-- The pending list computed inside `migrate()`: registry definitions whose
version is not among the executed versions. -/
def pendingOf (hash : String → String) (dir : Dir) (db : DBState σ) :
    List MigrationDef :=
  let executedVersions := (getExecutedMigrations db).map (fun e => e.version)
  (getMigrationFiles hash dir).filter (fun m => !(executedVersions.contains m.version))

/-- The `for (const migration of pendingMigrations)` loop of `migrate()`:
apply each pending definition in order; the first error is rethrown at once,
abandoning the rest. -/
def migrateLoop (runSql : String → σ → Option σ) (now : Nat) :
    List MigrationDef → DBState σ → DBState σ × Option MigErr
  | [], db => (db, none)
  | m :: rest, db =>
    match executeMigration runSql now m db with
    | (db2, none) => migrateLoop runSql now rest db2
    | (db2, some e) => (db2, some e)

/-- `migrate()`: ensure the ledger table, compute the pending list, return at
once when it is empty, otherwise run the loop. -/
def migrate (runSql : String → σ → Option σ) (hash : String → String)
    (now : Nat) (dir : Dir) (db : DBState σ) : DBState σ × Option MigErr :=
  let db0 := ensureMigrationsTable db
  let pending := pendingOf hash dir db0
  if pending.isEmpty then (db0, none)
  else migrateLoop runSql now pending db0

/-- `rollback(version = null)`: nothing to do on an empty ledger; an explicit
version must be found among the executed migrations; otherwise (no argument,
or — by JS truthiness of `if (version)` — an empty-string argument) the last
entry of the `ORDER BY version` result is targeted. -/
def rollback (runSql : String → σ → Option σ) (dir : Dir)
    (version : Option String) (db : DBState σ) : DBState σ × Option MigErr :=
  let executed := getExecutedMigrations db
  if executed.isEmpty then (db, none)
  else
    match version with
    | some v =>
      if v ≠ "" then
        match executed.find? (fun m => m.version == v) with
        | none => (db, some (.migrationNotFound v))
        | some _ => rollbackMigration runSql dir v db
      else rollbackMigration runSql dir (executed.getLastD default).version db
    | none => rollbackMigration runSql dir (executed.getLastD default).version db

/-- One line of `status()` output: version and name of a registry definition,
whether it is EXECUTED, and the ledger timestamp printed for executed ones. -/
structure StatusLine where
  version : String
  name : String
  executed : Bool
  executedAt : Option Nat
deriving Repr, DecidableEq

/-- `status()`: classify every registry definition against the executed
version set, pairing executed ones with the found ledger row's
`executed_at`. -/
def status (hash : String → String) (dir : Dir) (db : DBState σ) :
    List StatusLine :=
  let migrationFiles := getMigrationFiles hash dir
  let executedMigrations := getExecutedMigrations db
  let executedVersions := executedMigrations.map (fun e => e.version)
  migrationFiles.map (fun m =>
    let isExecuted := executedVersions.contains m.version
    { version := m.version, name := m.name, executed := isExecuted,
      executedAt :=
        if isExecuted then
          (executedMigrations.find? (fun e => e.version == m.version)).map
            (fun e => e.executedAt)
        else none })

/-! ## Concrete fixtures used by witnesses and counterexamples -/

/-- Concrete script interpreter: each script conses its text onto a log,
except the text `FAIL`, which raises an error. -/
def runLog : String → List String → Option (List String) :=
  fun s l => if s = "FAIL" then none else some (s :: l)

/-- Identity function standing in for the opaque md5 in concrete runs. -/
def hashId : String → String := fun s => s

/-- Two forward migrations plus a rollback counterpart for `001`. -/
def dirA : Dir :=
  ⟨["002_second.sql", "001_first.sql", "001_first_rollback.sql"],
    fun f => if f = "001_first.sql" then "S1"
      else if f = "002_second.sql" then "S2" else "RB1"⟩

/-- Four forward migrations; the third one's script fails. -/
def dirFail : Dir :=
  ⟨["001_a.sql", "002_b.sql", "003_c.sql", "004_d.sql"],
    fun f => if f = "003_c.sql" then "FAIL" else f⟩

/-- Two non-rollback files sharing the version `001`. -/
def dirDup : Dir := ⟨["001_a.sql", "001_b.sql"], fun f => f⟩

/-- A rollback counterpart for `001` whose forward file is absent. -/
def dirRbOnly : Dir := ⟨["001_x_rollback.sql"], fun _ => "RB"⟩

/-- A forward file for `001` together with its rollback counterpart. -/
def dirBoth : Dir :=
  ⟨["001_x.sql", "001_x_rollback.sql"],
    fun f => if f = "001_x.sql" then "F" else "RB"⟩

/-- Empty database with an empty script log. -/
def db0 : DBState (List String) := ⟨[], []⟩

/-- Database whose ledger holds version `001` only. -/
def db1 : DBState (List String) := ⟨[⟨"001", "first", 5, "c1"⟩], []⟩

/-- Ledger rows stored in descending version order. -/
def dbScrambled : DBState (List String) :=
  ⟨[⟨"002", "second", 8, "c2"⟩, ⟨"001", "first", 5, "c1"⟩], []⟩

/-! ## String helper lemmas -/

theorem listCharLe_cons {x y : Char} {xs ys : List Char} :
    listCharLe (x :: xs) (y :: ys) =
      if x < y then true else if y < x then false else listCharLe xs ys := rfl

theorem listStarts_iff {p l : List Char} : listStarts p l = true ↔ ∃ t, l = p ++ t := by
  induction p generalizing l with
  | nil => simp [listStarts]
  | cons a as ih =>
    cases l with
    | nil => simp [listStarts]
    | cons b bs =>
      simp only [listStarts, Bool.and_eq_true, beq_iff_eq, ih, List.cons_append]
      constructor
      · rintro ⟨rfl, t, rfl⟩
        exact ⟨t, rfl⟩
      · rintro ⟨t, ht⟩
        injection ht with h1 h2
        exact ⟨h1.symm, t, h2⟩

theorem hasSub_iff {p l : List Char} : hasSub p l = true ↔ ∃ s t, l = s ++ p ++ t := by
  induction l with
  | nil =>
    simp only [hasSub, listStarts_iff]
    constructor
    · rintro ⟨t, ht⟩
      exact ⟨[], t, by simpa using ht⟩
    · rintro ⟨s, t, ht⟩
      refine ⟨t, ?_⟩
      rcases List.append_eq_nil.mp ht.symm with ⟨h1, h2⟩
      rcases List.append_eq_nil.mp h1 with ⟨rfl, rfl⟩
      simpa using ht
  | cons a t ih =>
    simp only [hasSub, Bool.or_eq_true, listStarts_iff, ih]
    constructor
    · rintro (⟨u, hu⟩ | ⟨s, u, hu⟩)
      · exact ⟨[], u, by simpa using hu⟩
      · exact ⟨a :: s, u, by simp [hu]⟩
    · rintro ⟨s, u, hu⟩
      cases s with
      | nil => exact Or.inl ⟨u, by simpa using hu⟩
      | cons x s' =>
        injection hu with h1 h2
        exact Or.inr ⟨s', u, h2⟩

theorem listEnds_iff {p l : List Char} : listEnds p l = true ↔ ∃ s, l = s ++ p := by
  unfold listEnds
  rw [listStarts_iff]
  constructor
  · rintro ⟨t, ht⟩
    refine ⟨t.reverse, ?_⟩
    have h := congrArg List.reverse ht
    simpa [List.reverse_append] using h
  · rintro ⟨s, rfl⟩
    exact ⟨s.reverse, by simp [List.reverse_append]⟩

theorem listCharLe_total : ∀ a b : List Char, listCharLe a b = true ∨ listCharLe b a = true := by
  intro a
  induction a with
  | nil => intro b; left; rfl
  | cons x xs ih =>
    intro b
    cases b with
    | nil => right; rfl
    | cons y ys =>
      rcases lt_trichotomy x y with h | rfl | h
      · left; simp [listCharLe_cons, h]
      · rcases ih ys with h | h
        · left; simp [listCharLe_cons, h]
        · right; simp [listCharLe_cons, h]
      · right; simp [listCharLe_cons, h]

theorem listCharLe_trans : ∀ {a b c : List Char}, listCharLe a b = true →
    listCharLe b c = true → listCharLe a c = true := by
  intro a
  induction a with
  | nil => intro b c _ _; rfl
  | cons x xs ih =>
    intro b c hab hbc
    cases b with
    | nil => simp [listCharLe] at hab
    | cons y ys =>
      cases c with
      | nil => simp [listCharLe] at hbc
      | cons z zs =>
        rcases lt_trichotomy x y with hxy | rfl | hxy
        · rcases lt_trichotomy y z with hyz | rfl | hyz
          · simp [listCharLe_cons, lt_trans hxy hyz]
          · simp [listCharLe_cons, hxy]
          · rw [listCharLe_cons, if_neg (lt_asymm hyz), if_pos hyz] at hbc
            exact absurd hbc (by simp)
        · rw [listCharLe_cons, if_neg (lt_irrefl x), if_neg (lt_irrefl x)] at hab
          rcases lt_trichotomy x z with hxz | rfl | hxz
          · simp [listCharLe_cons, hxz]
          · rw [listCharLe_cons, if_neg (lt_irrefl x), if_neg (lt_irrefl x)] at hbc ⊢
            exact ih hab hbc
          · rw [listCharLe_cons, if_neg (lt_asymm hxz), if_pos hxz] at hbc
            exact absurd hbc (by simp)
        · rw [listCharLe_cons, if_neg (lt_asymm hxy), if_pos hxy] at hab
          exact absurd hab (by simp)

theorem listCharLe_iff_not_lex : ∀ {a b : List Char},
    listCharLe a b = true ↔ ¬ List.Lex (· < ·) b a := by
  intro a
  induction a with
  | nil =>
    intro b
    constructor
    · intro _ h; cases h
    · intro _; rfl
  | cons x xs ih =>
    intro b
    cases b with
    | nil =>
      constructor
      · intro h; exact absurd h (by simp [listCharLe])
      · intro h; exact absurd List.Lex.nil h
    | cons y ys =>
      rw [listCharLe_cons]
      rcases lt_trichotomy x y with hxy | rfl | hxy
      · rw [if_pos hxy]
        have hnl : ¬ List.Lex (· < ·) (y :: ys) (x :: xs) := by
          intro h
          cases h with
          | rel h' => exact lt_asymm hxy h'
          | cons h' => exact lt_irrefl x hxy
        simp [hnl]
      · rw [if_neg (lt_irrefl x), if_neg (lt_irrefl x), List.Lex.cons_iff]
        exact ih
      · rw [if_neg (lt_asymm hxy), if_pos hxy]
        simp [List.Lex.rel hxy]

theorem strLe_iff {a b : String} : strLe a b = true ↔ a ≤ b := by
  rw [strLe, listCharLe_iff_not_lex, String.le_iff_toList_le]
  show ¬ _ ↔ a.data ≤ b.data
  rw [← not_lt]
  rfl

theorem strLe_total : ∀ a b : String, strLe a b = true ∨ strLe b a = true :=
  fun a b => listCharLe_total a.data b.data

instance instStrLeTotal : IsTotal String (fun a b => strLe a b = true) :=
  ⟨strLe_total⟩

instance instStrLeTrans : IsTrans String (fun a b => strLe a b = true) :=
  ⟨fun _ _ _ hab hbc => listCharLe_trans hab hbc⟩

instance instLedgerLeTotal :
    IsTotal LedgerEntry (fun a b => strLe a.version b.version = true) :=
  ⟨fun a b => strLe_total a.version b.version⟩

instance instLedgerLeTrans :
    IsTrans LedgerEntry (fun a b => strLe a.version b.version = true) :=
  ⟨fun _ _ _ hab hbc => listCharLe_trans hab hbc⟩

/-! ## Transaction executor helper lemmas -/

theorem executeMigration_shape {σ : Type} (runSql : String → σ → Option σ) (now : Nat)
    (m : MigrationDef) (db : DBState σ) :
    (∃ e, executeMigration runSql now m db = (db, some e)) ∨
      (∃ app2, runSql m.content db.app = some app2 ∧
        executeMigration runSql now m db =
          ({ ledger := db.ledger ++ [mkEntry m now], app := app2 }, none)) := by
  cases h : runSql m.content db.app with
  | none =>
    refine Or.inl ⟨.scriptFailed m.version, ?_⟩
    unfold executeMigration
    simp only [h]
  | some app2 =>
    by_cases hd : db.ledger.any (fun e => e.version == m.version) = true
    · refine Or.inl ⟨.duplicateVersion m.version, ?_⟩
      unfold executeMigration
      simp only [h]
      rw [if_pos hd]
    · refine Or.inr ⟨app2, rfl, ?_⟩
      unfold executeMigration
      simp only [h]
      rw [if_neg hd]

theorem executeMigration_err_eq {σ : Type} {runSql : String → σ → Option σ} {now : Nat}
    {m : MigrationDef} {db : DBState σ} {e : MigErr}
    (h : (executeMigration runSql now m db).2 = some e) :
    executeMigration runSql now m db = (db, some e) := by
  rcases executeMigration_shape runSql now m db with ⟨e', he⟩ | ⟨a, _, he⟩
  · rw [he] at h ⊢
    have h2 : e' = e := by simpa using h
    rw [h2]
  · rw [he] at h
    simp at h

theorem executeMigration_ok_ledger {σ : Type} {runSql : String → σ → Option σ} {now : Nat}
    {m : MigrationDef} {db db2 : DBState σ}
    (h : executeMigration runSql now m db = (db2, none)) :
    db2.ledger = db.ledger ++ [mkEntry m now] := by
  rcases executeMigration_shape runSql now m db with ⟨e', he⟩ | ⟨a, _, he⟩
  · rw [he] at h
    simp at h
  · have h1 : ({ ledger := db.ledger ++ [mkEntry m now], app := a } : DBState σ) = db2 :=
      congrArg Prod.fst (he.symm.trans h)
    rw [← h1]

/-! ## Migration loop helper lemmas -/

theorem migrateLoop_nil {σ : Type} (runSql : String → σ → Option σ) (now : Nat)
    (db : DBState σ) : migrateLoop runSql now [] db = (db, none) := rfl

theorem migrateLoop_cons_ok {σ : Type} {runSql : String → σ → Option σ} {now : Nat}
    {m : MigrationDef} {db db2 : DBState σ} (rest : List MigrationDef)
    (h : executeMigration runSql now m db = (db2, none)) :
    migrateLoop runSql now (m :: rest) db = migrateLoop runSql now rest db2 := by
  have h0 : migrateLoop runSql now (m :: rest) db =
      match executeMigration runSql now m db with
      | (db2, none) => migrateLoop runSql now rest db2
      | (db2, some e) => (db2, some e) := rfl
  rw [h0, h]

theorem migrateLoop_cons_err {σ : Type} {runSql : String → σ → Option σ} {now : Nat}
    {m : MigrationDef} {db db2 : DBState σ} {e : MigErr} (rest : List MigrationDef)
    (h : executeMigration runSql now m db = (db2, some e)) :
    migrateLoop runSql now (m :: rest) db = (db2, some e) := by
  have h0 : migrateLoop runSql now (m :: rest) db =
      match executeMigration runSql now m db with
      | (db2, none) => migrateLoop runSql now rest db2
      | (db2, some e) => (db2, some e) := rfl
  rw [h0, h]

theorem migrateLoop_append_ok {σ : Type} {runSql : String → σ → Option σ} {now : Nat}
    {p : List MigrationDef} (q : List MigrationDef) {db db1 : DBState σ}
    (h : migrateLoop runSql now p db = (db1, none)) :
    migrateLoop runSql now (p ++ q) db = migrateLoop runSql now q db1 := by
  induction p generalizing db with
  | nil =>
    have h1 : db = db1 := congrArg Prod.fst h
    rw [← h1]
    rfl
  | cons m rest ih =>
    rcases hs : executeMigration runSql now m db with ⟨db2, err⟩
    cases err with
    | none =>
      rw [migrateLoop_cons_ok rest hs] at h
      rw [List.cons_append, migrateLoop_cons_ok (rest ++ q) hs]
      exact ih h
    | some e =>
      rw [migrateLoop_cons_err rest hs] at h
      simp at h

theorem migrateLoop_ok_ledger {σ : Type} {runSql : String → σ → Option σ} {now : Nat}
    {p : List MigrationDef} {db db1 : DBState σ}
    (h : migrateLoop runSql now p db = (db1, none)) :
    db1.ledger = db.ledger ++ p.map (fun m => mkEntry m now) := by
  induction p generalizing db with
  | nil =>
    have h1 : db = db1 := congrArg Prod.fst h
    rw [← h1]
    simp
  | cons m rest ih =>
    rcases hs : executeMigration runSql now m db with ⟨db2, err⟩
    cases err with
    | none =>
      rw [migrateLoop_cons_ok rest hs] at h
      rw [ih h, executeMigration_ok_ledger hs]
      simp
    | some e =>
      rw [migrateLoop_cons_err rest hs] at h
      simp at h

/-! ## Ledger and list helper lemmas -/

theorem getExecutedMigrations_perm (db : DBState σ) :
    (getExecutedMigrations db).Perm db.ledger :=
  List.perm_insertionSort _ _

theorem mem_getExecutedMigrations {db : DBState σ} {e : LedgerEntry} :
    e ∈ getExecutedMigrations db ↔ e ∈ db.ledger :=
  (getExecutedMigrations_perm db).mem_iff

theorem strContains_iff {l : List String} {a : String} :
    l.contains a = true ↔ a ∈ l :=
  List.elem_iff

theorem eq_of_nodup_map {α β : Type} {l : List α} {f : α → β} (hn : (l.map f).Nodup)
    {a b : α} (ha : a ∈ l) (hb : b ∈ l) (h : f a = f b) : a = b := by
  induction l with
  | nil => cases ha
  | cons x t ih =>
    rw [List.map_cons, List.nodup_cons] at hn
    rcases List.mem_cons.mp ha with rfl | ha' <;> rcases List.mem_cons.mp hb with rfl | hb'
    · rfl
    · exact absurd (List.mem_map_of_mem f hb') (h ▸ hn.1)
    · exact absurd (List.mem_map_of_mem f ha') (h.symm ▸ hn.1)
    · exact ih hn.2 ha' hb'

theorem getLastD_mem {α : Type} : ∀ (l : List α) (d : α), l ≠ [] → l.getLastD d ∈ l
  | [], _, h => absurd rfl h
  | [a], _, _ => by simp
  | a :: b :: t, d, _ => by
    have h1 : (a :: b :: t).getLastD d = (b :: t).getLastD a := rfl
    rw [h1]
    exact List.mem_cons_of_mem a (getLastD_mem (b :: t) a (by simp))

theorem pairwise_rel_getLastD {α : Type} {R : α → α → Prop} :
    ∀ {l : List α}, l.Pairwise R → ∀ x ∈ l, ∀ d : α,
      x = l.getLastD d ∨ R x (l.getLastD d) := by
  intro l
  induction l with
  | nil => intro _ x hx; cases hx
  | cons a t ih =>
    intro hp x hx d
    rcases List.pairwise_cons.mp hp with ⟨hhead, htail⟩
    cases t with
    | nil =>
      left
      simpa using hx
    | cons b t' =>
      have h1 : (a :: b :: t').getLastD d = (b :: t').getLastD a := rfl
      rcases List.mem_cons.mp hx with rfl | hx'
      · right
        rw [h1]
        exact hhead _ (getLastD_mem (b :: t') x (by simp))
      · rw [h1]
        exact ih htail x hx' a

theorem not_contains_iff {l : List String} {v : String} :
    (!(l.contains v)) = true ↔ v ∉ l := by
  rw [Bool.not_eq_true']
  constructor
  · intro h hv
    rw [strContains_iff.mpr hv] at h
    cases h
  · intro h
    cases hc : l.contains v
    · rfl
    · exact absurd (strContains_iff.mp hc) h

theorem mem_executedVersions {σ : Type} {db : DBState σ} {v : String} :
    v ∈ (getExecutedMigrations db).map (fun e => e.version) ↔
      v ∈ db.ledger.map (fun e => e.version) :=
  ((getExecutedMigrations_perm db).map _).mem_iff

theorem mem_pendingOf {σ : Type} {hash : String → String} {dir : Dir} {db : DBState σ}
    {m : MigrationDef} :
    m ∈ pendingOf hash dir db ↔
      m ∈ getMigrationFiles hash dir ∧
        m.version ∉ db.ledger.map (fun e => e.version) := by
  unfold pendingOf
  rw [List.mem_filter]
  constructor
  · rintro ⟨h1, h2⟩
    have h3 := not_contains_iff.mp h2
    exact ⟨h1, fun hv => h3 (mem_executedVersions.mpr hv)⟩
  · rintro ⟨h1, h2⟩
    refine ⟨h1, not_contains_iff.mpr ?_⟩
    exact fun hv => h2 (mem_executedVersions.mp hv)

theorem pendingOf_eq_nil_iff {σ : Type} {hash : String → String} {dir : Dir}
    {db : DBState σ} :
    pendingOf hash dir db = [] ↔
      ∀ m ∈ getMigrationFiles hash dir,
        m.version ∈ db.ledger.map (fun e => e.version) := by
  rw [List.eq_nil_iff_forall_not_mem]
  constructor
  · intro h m hm
    by_contra hv
    exact h m (mem_pendingOf.mpr ⟨hm, hv⟩)
  · intro h m hm
    rcases mem_pendingOf.mp hm with ⟨h1, h2⟩
    exact h2 (h m h1)

theorem migrate_eq {σ : Type} (runSql : String → σ → Option σ) (hash : String → String)
    (now : Nat) (dir : Dir) (db : DBState σ) :
    migrate runSql hash now dir db =
      if (pendingOf hash dir db).isEmpty then (db, none)
      else migrateLoop runSql now (pendingOf hash dir db) db := rfl

theorem matchesMigPattern_iff {f : String} :
    matchesMigPattern f = true ↔
      ∃ a b c rest, f.data = a :: b :: c :: '_' :: rest ∧
        a.isDigit = true ∧ b.isDigit = true ∧ c.isDigit = true ∧
        ∃ mid, rest = mid ++ ".sql".data := by
  unfold matchesMigPattern
  split
  case _ a b c rest heq =>
    simp only [Bool.and_eq_true, listEnds_iff]
    rw [heq]
    constructor
    · rintro ⟨⟨⟨ha, hb⟩, hc⟩, mid, hm⟩
      exact ⟨a, b, c, rest, rfl, ha, hb, hc, mid, hm⟩
    · rintro ⟨a', b', c', rest', hE, ha, hb, hc, mid, hm⟩
      injection hE with h1 hE
      injection hE with h2 hE
      injection hE with h3 hE
      injection hE with h4 hE
      subst h1
      subst h2
      subst h3
      subst hE
      exact ⟨⟨⟨ha, hb⟩, hc⟩, mid, hm⟩
  case _ hno =>
    simp only [Bool.false_eq_true, false_iff]
    rintro ⟨a, b, c, rest, heq, -⟩
    exact hno a b c rest heq

/-- C1: `executeMigration` is all-or-nothing. Executing the forward script
and inserting the ledger row happen in one transaction scope: either every
step succeeds and the commit publishes exactly the script's state change plus
the one new ledger row, or some step fails and the returned state is the
caller's state completely unchanged — the script's side effects and the
ledger row are both discarded — with the error propagated to the caller. -/
theorem executeMigration_all_or_nothing {σ : Type} (runSql : String → σ → Option σ)
    (now : Nat) (m : MigrationDef) (db : DBState σ) :
    (∃ e, executeMigration runSql now m db = (db, some e)) ∨
      (∃ app2, runSql m.content db.app = some app2 ∧
        executeMigration runSql now m db =
          ({ ledger := db.ledger ++ [mkEntry m now], app := app2 }, none)) :=
  executeMigration_shape runSql now m db

/-- C7: for a version with no rollback counterpart file in the directory,
`rollbackMigration` fails with the missing-rollback-file error and returns
the ledger (indeed the whole database state) unchanged: no row is removed
and no transaction is opened. -/
theorem rollbackMigration_missing_file {σ : Type} (runSql : String → σ → Option σ)
    (dir : Dir) (v : String) (db : DBState σ)
    (h : dir.listing.filter (rollbackFileFor v) = []) :
    rollbackMigration runSql dir v db = (db, some (.noRollbackFile v)) := by
  unfold rollbackMigration
  rw [h]

/-- Witness for C7 at a concrete input: `dirA` holds no rollback counterpart
for version `002`, and rolling `002` back fails accordingly, ledger intact. -/
theorem rollbackMigration_missing_file_witness :
    dirA.listing.filter (rollbackFileFor "002") = [] ∧
      rollbackMigration runLog dirA "002" db1 = (db1, some (.noRollbackFile "002")) :=
  ⟨by decide, rollbackMigration_missing_file runLog dirA "002" db1 (by decide)⟩

/-- C4 counterexample: `dirDup` holds the two accepted non-rollback files
`001_a.sql` and `001_b.sql`, which share the version prefix `001`; discovery
returns a two-definition list carrying the duplicated version instead of
failing with an invalid-definition error. -/
theorem getMigrationFiles_dup_counterexample :
    (getMigrationFiles hashId dirDup).map (fun m => m.version) = ["001", "001"] := by
  decide

/-- C4 amended: registry discovery performs no duplicate-version check. For
every directory it returns, without any error, exactly one definition per
accepted non-rollback file — the sorted accepted listing — so two accepted
files sharing a version prefix simply yield two definitions with the same
version. -/
theorem getMigrationFiles_total (hash : String → String) (dir : Dir) :
    (getMigrationFiles hash dir).map (fun m => m.file) =
      (dir.listing.filter acceptsMigrationFile).insertionSort
        (fun a b => strLe a b = true) := by
  unfold getMigrationFiles
  rw [List.map_map]
  have h : ((fun m : MigrationDef => m.file) ∘ mkDef hash dir) = id := funext fun f => rfl
  rw [h, List.map_id]

/-- C10: discovery accepts exactly the filenames made of three digits, an
underscore, an arbitrary middle, and the suffix `.sql`, excluding every name
containing the substring `rollback` anywhere; consequently the forward-named
file `003_fix_rollback_bug.sql` is rejected, and adding it to any directory
changes nothing about discovery, `migrate`, or `status`. -/
theorem acceptsMigrationFile_spec {σ : Type} (runSql : String → σ → Option σ) :
    (∀ f : String, acceptsMigrationFile f = true ↔
        ((∃ a b c rest, f.data = a :: b :: c :: '_' :: rest ∧
            a.isDigit = true ∧ b.isDigit = true ∧ c.isDigit = true ∧
            ∃ mid, rest = mid ++ ".sql".data) ∧
          ¬ ∃ s t, f.data = s ++ "rollback".data ++ t)) ∧
      acceptsMigrationFile "003_fix_rollback_bug.sql" = false ∧
      (∀ hash dir, getMigrationFiles hash
          ⟨"003_fix_rollback_bug.sql" :: dir.listing, dir.read⟩ =
          getMigrationFiles hash dir) ∧
      (∀ hash now dir (db : DBState σ), migrate runSql hash now
          ⟨"003_fix_rollback_bug.sql" :: dir.listing, dir.read⟩ db =
          migrate runSql hash now dir db) ∧
      (∀ hash dir (db : DBState σ), status hash
          ⟨"003_fix_rollback_bug.sql" :: dir.listing, dir.read⟩ db =
          status hash dir db) := by
  have hacc : acceptsMigrationFile "003_fix_rollback_bug.sql" = false := by decide
  have hG : ∀ hash dir, getMigrationFiles hash
      ⟨"003_fix_rollback_bug.sql" :: dir.listing, dir.read⟩ = getMigrationFiles hash dir := by
    intro hash dir
    unfold getMigrationFiles
    simp only [List.filter_cons, hacc]
    simp
    intro a _ _
    rfl
  refine ⟨?_, hacc, hG, ?_, ?_⟩
  · intro f
    unfold acceptsMigrationFile
    rw [Bool.and_eq_true, matchesMigPattern_iff, Bool.not_eq_true']
    have hsub : hasSub "rollback".data f.data = false ↔
        ¬ ∃ s t, f.data = s ++ "rollback".data ++ t := by
      rw [← hasSub_iff]
      simp
    rw [hsub]
  · intro hash now dir db
    simp only [migrate, pendingOf, hG]
  · intro hash dir db
    simp only [status, hG]

/-- C2: `migrate` is fail-fast. If the pending list splits as
`p1 ++ m :: p2`, every definition of `p1` applies successfully and `m`'s
transaction fails, then the run returns `m`'s error from the state reached
after `p1`: the `p1` commits stand (exactly one ledger row each, appended in
order), the failed definition leaves no ledger row, and the result does not
depend on `p2` — the definitions after the failed one are never attempted. -/
theorem migrate_fail_fast {σ : Type} (runSql : String → σ → Option σ)
    (hash : String → String) (now : Nat) (dir : Dir) (db db1 : DBState σ)
    (p1 p2 : List MigrationDef) (m : MigrationDef) (e : MigErr)
    (hpend : pendingOf hash dir db = p1 ++ m :: p2)
    (hp1 : migrateLoop runSql now p1 db = (db1, none))
    (hm : (executeMigration runSql now m db1).2 = some e) :
    migrate runSql hash now dir db = (db1, some e) ∧
      db1.ledger = db.ledger ++ p1.map (fun x => mkEntry x now) := by
  have hmeq := executeMigration_err_eq hm
  constructor
  · rw [migrate_eq, hpend]
    have hne : ¬ ((p1 ++ m :: p2).isEmpty = true) := by
      cases p1 <;> simp
    rw [if_neg hne, migrateLoop_append_ok (m :: p2) hp1]
    exact migrateLoop_cons_err p2 hmeq
  · exact migrateLoop_ok_ledger hp1

/-- Witness for C2 at a concrete input: in `dirFail` the third of four
pending scripts fails; exactly the first two ledger rows are added, the
failure is reported, and the fourth script is never run. -/
theorem migrate_fail_fast_witness :
    migrate runLog hashId 7 dirFail db0 =
      (⟨[⟨"001", "a", 7, "001_a.sql"⟩, ⟨"002", "b", 7, "002_b.sql"⟩],
          ["002_b.sql", "001_a.sql"]⟩, some (.scriptFailed "003")) := by
  have h := migrate_fail_fast runLog hashId 7 dirFail db0
    ⟨[⟨"001", "a", 7, "001_a.sql"⟩, ⟨"002", "b", 7, "002_b.sql"⟩],
      ["002_b.sql", "001_a.sql"]⟩
    [⟨"001", "a", "001_a.sql", "001_a.sql", "001_a.sql"⟩,
      ⟨"002", "b", "002_b.sql", "002_b.sql", "002_b.sql"⟩]
    [⟨"004", "d", "004_d.sql", "004_d.sql", "004_d.sql"⟩]
    ⟨"003", "c", "003_c.sql", "FAIL", "FAIL"⟩
    (.scriptFailed "003")
    (by decide) (by decide) (by decide)
  exact h.1

/-- C9: `migrate` is idempotent over the ledger. After a run completes
successfully, a second run over the same directory (with any timestamp and
any script interpreter) finds an empty pending set and returns its input
state unchanged, applying nothing. -/
theorem migrate_idempotent {σ : Type} (runSql runSql2 : String → σ → Option σ)
    (hash : String → String) (now now2 : Nat) (dir : Dir) (db db1 : DBState σ)
    (h : migrate runSql hash now dir db = (db1, none)) :
    pendingOf hash dir db1 = [] ∧
      migrate runSql2 hash now2 dir db1 = (db1, none) := by
  rw [migrate_eq] at h
  by_cases hp : (pendingOf hash dir db).isEmpty = true
  · rw [if_pos hp] at h
    have hdb : db = db1 := congrArg Prod.fst h
    subst hdb
    have hnil : pendingOf hash dir db = [] := by
      cases hl : pendingOf hash dir db with
      | nil => rfl
      | cons x t => rw [hl] at hp; simp at hp
    refine ⟨hnil, ?_⟩
    rw [migrate_eq, hnil]
    rfl
  · rw [if_neg hp] at h
    have hled := migrateLoop_ok_ledger h
    have hsub : ∀ m ∈ getMigrationFiles hash dir,
        m.version ∈ db1.ledger.map (fun e => e.version) := by
      intro m hm
      rw [hled, List.map_append]
      by_cases hv : m.version ∈ db.ledger.map (fun e => e.version)
      · exact List.mem_append_left _ hv
      · refine List.mem_append_right _ ?_
        have hmp : m ∈ pendingOf hash dir db := mem_pendingOf.mpr ⟨hm, hv⟩
        rw [List.map_map]
        have hc : ((fun e : LedgerEntry => e.version) ∘ (fun x : MigrationDef => mkEntry x now))
            = fun x : MigrationDef => x.version := funext fun x => rfl
        rw [hc]
        exact List.mem_map_of_mem _ hmp
    have hnil1 : pendingOf hash dir db1 = [] := pendingOf_eq_nil_iff.mpr hsub
    refine ⟨hnil1, ?_⟩
    rw [migrate_eq, hnil1]
    rfl

/-- Witness for C9 at a concrete input: running `migrate` on `dirA` from an
empty database succeeds; the second run's pending set is empty and the
second run changes nothing. -/
theorem migrate_idempotent_witness :
    pendingOf hashId dirA
        ⟨[⟨"001", "first", 3, "S1"⟩, ⟨"002", "second", 3, "S2"⟩], ["S2", "S1"]⟩ = [] ∧
      migrate runLog hashId 9 dirA
          ⟨[⟨"001", "first", 3, "S1"⟩, ⟨"002", "second", 3, "S2"⟩], ["S2", "S1"]⟩ =
        (⟨[⟨"001", "first", 3, "S1"⟩, ⟨"002", "second", 3, "S2"⟩], ["S2", "S1"]⟩, none) :=
  migrate_idempotent runLog runLog hashId 3 9 dirA db0
    ⟨[⟨"001", "first", 3, "S1"⟩, ⟨"002", "second", 3, "S2"⟩], ["S2", "S1"]⟩
    (by decide)

/-- C8: `status` classifies every registry definition, in registry
(sorted-filename) order independent of ledger row order, as executed exactly
when its version occurs in the ledger; executed lines carry the matching
ledger row's recorded timestamp (the ledger's versions being unique, as its
`UNIQUE` constraint guarantees) and pending lines carry none. -/
theorem status_spec {σ : Type} (hash : String → String) (dir : Dir) (db : DBState σ) :
    ((status hash dir db).map (fun l => (l.version, l.name)) =
        (getMigrationFiles hash dir).map (fun m => (m.version, m.name))) ∧
      (∀ l ∈ status hash dir db,
        (l.executed = true ↔ l.version ∈ db.ledger.map (fun e => e.version))) ∧
      (∀ l ∈ status hash dir db, l.executed = false → l.executedAt = none) ∧
      ((db.ledger.map (fun e => e.version)).Nodup →
        ∀ l ∈ status hash dir db, ∀ e ∈ db.ledger,
          e.version = l.version → l.executed = true →
            l.executedAt = some e.executedAt) := by
  refine ⟨?_, ?_, ?_, ?_⟩
  · show ((getMigrationFiles hash dir).map _).map _ = _
    rw [List.map_map]
    rfl
  · intro l hl
    simp only [status, List.mem_map] at hl
    obtain ⟨m, _, rfl⟩ := hl
    exact strContains_iff.trans mem_executedVersions
  · intro l hl hex
    simp only [status, List.mem_map] at hl
    obtain ⟨m, _, rfl⟩ := hl
    have hex' : ((getExecutedMigrations db).map (fun e => e.version)).contains m.version
        = false := hex
    show (if ((getExecutedMigrations db).map (fun e => e.version)).contains m.version = true
        then ((getExecutedMigrations db).find? (fun e => e.version == m.version)).map
          (fun e => e.executedAt)
        else none) = none
    rw [hex']
    simp
  · intro hnodup l hl e he hev hex
    simp only [status, List.mem_map] at hl
    obtain ⟨m, _, rfl⟩ := hl
    have hex' : ((getExecutedMigrations db).map (fun e => e.version)).contains m.version
        = true := hex
    have hev' : e.version = m.version := hev
    show (if ((getExecutedMigrations db).map (fun e => e.version)).contains m.version = true
        then ((getExecutedMigrations db).find? (fun e => e.version == m.version)).map
          (fun e => e.executedAt)
        else none) = some e.executedAt
    rw [if_pos hex']
    have hpe : (fun x : LedgerEntry => x.version == m.version) e = true := by
      rw [beq_iff_eq]
      exact hev'
    have hsome : ((getExecutedMigrations db).find?
        (fun x => x.version == m.version)).isSome = true :=
      List.find?_isSome.mpr ⟨e, mem_getExecutedMigrations.mpr he, hpe⟩
    obtain ⟨x, hx⟩ := Option.isSome_iff_exists.mp hsome
    have hxv : x.version = e.version := by
      have h1 := List.find?_some hx
      rw [beq_iff_eq] at h1
      rw [h1, hev']
    have hxe : x = e :=
      eq_of_nodup_map hnodup
        (mem_getExecutedMigrations.mp (List.mem_of_find?_eq_some hx)) he hxv
    rw [hx, hxe]
    rfl

/-- Witness for C8 at a concrete input: with ledger rows stored in
descending version order, `status` still lists registry order `001, 002`,
marks both executed, and pairs each with its own recorded timestamp. -/
theorem status_spec_witness :
    (dbScrambled.ledger.map (fun e => e.version)).Nodup ∧
      status hashId dirA dbScrambled =
        [⟨"001", "first", true, some 5⟩, ⟨"002", "second", true, some 8⟩] ∧
      ∀ l ∈ status hashId dirA dbScrambled, ∀ e ∈ dbScrambled.ledger,
        e.version = l.version → l.executed = true →
          l.executedAt = some e.executedAt :=
  ⟨by decide, by decide, (status_spec hashId dirA dbScrambled).2.2.2 (by decide)⟩

/-! ## Rollback helper lemmas -/

theorem rollbackMigration_none_eq {σ : Type} (runSql : String → σ → Option σ)
    (dir : Dir) (v : String) (db : DBState σ)
    (hf : dir.listing.filter (rollbackFileFor v) = []) :
    rollbackMigration runSql dir v db = (db, some (.noRollbackFile v)) := by
  unfold rollbackMigration
  rw [hf]

theorem rollbackMigration_cons_eq {σ : Type} (runSql : String → σ → Option σ)
    (dir : Dir) (v : String) (db : DBState σ) (f : String) (fs : List String)
    (hf : dir.listing.filter (rollbackFileFor v) = f :: fs) :
    rollbackMigration runSql dir v db =
      match runSql (dir.read f) db.app with
      | none => (db, some (.scriptFailed v))
      | some app2 =>
        ({ ledger := db.ledger.filter (fun e => !(e.version == v)), app := app2 }, none) := by
  unfold rollbackMigration
  rw [hf]

theorem rollbackMigration_ok_ledger {σ : Type} {runSql : String → σ → Option σ}
    {dir : Dir} {v : String} {db db2 : DBState σ}
    (h : rollbackMigration runSql dir v db = (db2, none)) :
    db2.ledger = db.ledger.filter (fun e => !(e.version == v)) := by
  cases hf : dir.listing.filter (rollbackFileFor v) with
  | nil =>
    rw [rollbackMigration_none_eq runSql dir v db hf] at h
    simp at h
  | cons f fs =>
    rw [rollbackMigration_cons_eq runSql dir v db f fs hf] at h
    cases hr : runSql (dir.read f) db.app with
    | none =>
      rw [hr] at h
      simp at h
    | some a =>
      rw [hr] at h
      have h1 : ({ ledger := db.ledger.filter (fun e => !(e.version == v)), app := a } :
          DBState σ) = db2 := congrArg Prod.fst h
      rw [← h1]

theorem getExecutedMigrations_isEmpty_false {σ : Type} {db : DBState σ}
    (h : db.ledger ≠ []) : (getExecutedMigrations db).isEmpty = false := by
  cases hE : getExecutedMigrations db with
  | nil =>
    have hp := getExecutedMigrations_perm db
    rw [hE] at hp
    exact absurd hp.symm.eq_nil h
  | cons x t => rfl

theorem rollback_eq {σ : Type} (runSql : String → σ → Option σ) (dir : Dir)
    (version : Option String) (db : DBState σ) :
    rollback runSql dir version db =
      if (getExecutedMigrations db).isEmpty then (db, none)
      else
        match version with
        | some v =>
          if v ≠ "" then
            match (getExecutedMigrations db).find? (fun m => m.version == v) with
            | none => (db, some (.migrationNotFound v))
            | some _ => rollbackMigration runSql dir v db
          else rollbackMigration runSql dir
            ((getExecutedMigrations db).getLastD default).version db
        | none => rollbackMigration runSql dir
            ((getExecutedMigrations db).getLastD default).version db := rfl

/-- C5 counterexample: `rollback` called with the explicit argument `""` — a
version string certainly not present in the ledger — does not fail with the
not-found error; because `if (version)` treats the empty string as falsy, it
behaves as the no-argument call and removes the highest-versioned entry. -/
theorem rollback_empty_string_counterexample :
    rollback runLog dirA (some "") db1 = (⟨[], ["RB1"]⟩, none) := by
  decide

/-- C5 amended: on an empty ledger `rollback` reports nothing to do and
changes nothing, for any argument; an explicit non-empty version absent from
the ledger fails with the not-found error, state unchanged; with no argument
(the empty-string argument behaving identically) the target is the entry
reached last in `ORDER BY version` order — a ledger member whose version
bounds every ledger version from above — whose paired rollback script is
executed and whose ledger row (every row of the target version) is deleted
on success. -/
theorem rollback_dispatch {σ : Type} (runSql : String → σ → Option σ) (dir : Dir)
    (db : DBState σ) (v : String) :
    (db.ledger = [] → ∀ arg, rollback runSql dir arg db = (db, none)) ∧
      (db.ledger ≠ [] → v ≠ "" → v ∉ db.ledger.map (fun e => e.version) →
        rollback runSql dir (some v) db = (db, some (.migrationNotFound v))) ∧
      (db.ledger ≠ [] →
        rollback runSql dir none db =
            rollbackMigration runSql dir
              ((getExecutedMigrations db).getLastD default).version db ∧
          (getExecutedMigrations db).getLastD default ∈ db.ledger ∧
          (∀ e ∈ db.ledger,
            e.version ≤ ((getExecutedMigrations db).getLastD default).version) ∧
          ∀ db2, rollbackMigration runSql dir
              ((getExecutedMigrations db).getLastD default).version db = (db2, none) →
            db2.ledger = db.ledger.filter
              (fun e => !(e.version ==
                ((getExecutedMigrations db).getLastD default).version))) := by
  refine ⟨?_, ?_, ?_⟩
  · intro h0 arg
    have hE : getExecutedMigrations db = [] := by
      unfold getExecutedMigrations
      rw [h0]
      rfl
    rw [rollback_eq, hE]
    rfl
  · intro hne hv hnotin
    have hEmp := getExecutedMigrations_isEmpty_false hne
    have hnotE : ¬ ((getExecutedMigrations db).isEmpty = true) := by
      rw [hEmp]
      simp
    have hfind : (getExecutedMigrations db).find? (fun m => m.version == v) = none := by
      rw [List.find?_eq_none]
      intro x hx
      rw [beq_iff_eq]
      intro hxv
      exact hnotin (hxv ▸ List.mem_map_of_mem (fun e => e.version)
        (mem_getExecutedMigrations.mp hx))
    rw [rollback_eq, if_neg hnotE]
    show (if v ≠ "" then _ else _) = _
    rw [if_pos hv]
    show (match (getExecutedMigrations db).find? (fun m => m.version == v) with
      | none => (db, some (MigErr.migrationNotFound v))
      | some _ => rollbackMigration runSql dir v db) = _
    rw [hfind]
  · intro hne
    have hEmp := getExecutedMigrations_isEmpty_false hne
    have hnotE : ¬ ((getExecutedMigrations db).isEmpty = true) := by
      rw [hEmp]
      simp
    have hEne : getExecutedMigrations db ≠ [] := by
      intro h0
      rw [h0] at hEmp
      simp at hEmp
    refine ⟨?_, ?_, ?_, ?_⟩
    · rw [rollback_eq, if_neg hnotE]
    · exact mem_getExecutedMigrations.mp (getLastD_mem _ _ hEne)
    · intro e he
      have hsort : List.Pairwise (fun a b : LedgerEntry => strLe a.version b.version = true)
          (getExecutedMigrations db) :=
        List.sorted_insertionSort _ _
      rcases pairwise_rel_getLastD hsort e (mem_getExecutedMigrations.mpr he) default with
        heq | hrel
      · rw [heq]
      · exact strLe_iff.mp hrel
    · intro db2 h2
      exact rollbackMigration_ok_ledger h2

/-- Witness for C5 at concrete inputs: empty ledger returns unchanged;
explicit absent version `777` fails with not-found; the no-argument call on
a one-entry ledger targets and removes that highest entry, executing its
rollback script. -/
theorem rollback_dispatch_witness :
    rollback runLog dirA (some "777") db0 = (db0, none) ∧
      rollback runLog dirA (some "777") db1 = (db1, some (.migrationNotFound "777")) ∧
      rollback runLog dirA none db1 = (⟨[], ["RB1"]⟩, none) := by
  refine ⟨?_, ?_, ?_⟩
  · exact (rollback_dispatch runLog dirA db0 "777").1 (by decide) (some "777")
  · exact (rollback_dispatch runLog dirA db1 "777").2.1 (by decide) (by decide) (by decide)
  · have h := ((rollback_dispatch runLog dirA db1 "777").2.2 (by decide)).1
    rw [h]
    decide

/-- C6 counterexample: in `dirRbOnly` the forward script file for version
`001` is missing from the directory (only the rollback counterpart exists),
yet `rollback` succeeds, executes the rollback script and removes the ledger
row — it never looks for the forward `MigrationDefinition`. -/
theorem rollback_missing_forward_counterexample :
    rollback runLog dirRbOnly none db1 = (⟨[], ["RB"]⟩, none) := by
  decide

/-- C6 amended: after the target version is resolved the orchestrator calls
the rollback executor directly with no registry lookup: the outcome depends
only on the rollback-marked files for the target version and their contents
— directories agreeing on those (in particular, differing in whether the
forward script file exists) behave identically, for `rollbackMigration` and
for the no-argument `rollback`. -/
theorem rollback_no_registry_lookup {σ : Type} (runSql : String → σ → Option σ)
    (dir1 dir2 : Dir) (v : String) (db : DBState σ)
    (hfilt : dir1.listing.filter (rollbackFileFor v) =
      dir2.listing.filter (rollbackFileFor v))
    (hread : ∀ f, rollbackFileFor v f = true → dir1.read f = dir2.read f) :
    rollbackMigration runSql dir1 v db = rollbackMigration runSql dir2 v db ∧
      (v = ((getExecutedMigrations db).getLastD default).version →
        rollback runSql dir1 none db = rollback runSql dir2 none db) := by
  have hmain : rollbackMigration runSql dir1 v db = rollbackMigration runSql dir2 v db := by
    cases hf : dir1.listing.filter (rollbackFileFor v) with
    | nil =>
      rw [rollbackMigration_none_eq runSql dir1 v db hf,
        rollbackMigration_none_eq runSql dir2 v db (hfilt.symm.trans hf)]
    | cons f fs =>
      have hf2 : dir2.listing.filter (rollbackFileFor v) = f :: fs := hfilt.symm.trans hf
      rw [rollbackMigration_cons_eq runSql dir1 v db f fs hf,
        rollbackMigration_cons_eq runSql dir2 v db f fs hf2]
      have hfmem : rollbackFileFor v f = true := by
        have hm : f ∈ dir1.listing.filter (rollbackFileFor v) := by
          rw [hf]
          exact List.mem_cons_self f fs
        exact (List.mem_filter.mp hm).2
      rw [hread f hfmem]
  refine ⟨hmain, ?_⟩
  intro hv
  by_cases hE : (getExecutedMigrations db).isEmpty = true
  · rw [rollback_eq, if_pos hE, rollback_eq, if_pos hE]
  · rw [rollback_eq, if_neg hE, rollback_eq, if_neg hE]
    show rollbackMigration runSql dir1 _ db = rollbackMigration runSql dir2 _ db
    rw [← hv]
    exact hmain

/-- Witness for C6 at concrete inputs: `dirRbOnly` (forward file missing)
and `dirBoth` (forward file present) agree on the rollback-marked files for
version `001`, so rolling back behaves identically. -/
theorem rollback_no_registry_lookup_witness :
    dirRbOnly.listing.filter (rollbackFileFor "001") =
        dirBoth.listing.filter (rollbackFileFor "001") ∧
      rollbackMigration runLog dirRbOnly "001" db1 =
        rollbackMigration runLog dirBoth "001" db1 := by
  have hread : ∀ f, rollbackFileFor "001" f = true → dirRbOnly.read f = dirBoth.read f := by
    intro f hf
    show "RB" = if f = "001_x.sql" then "F" else "RB"
    by_cases hx : f = "001_x.sql"
    · subst hx
      exact absurd hf (by decide)
    · rw [if_neg hx]
  exact ⟨by decide,
    (rollback_no_registry_lookup runLog dirRbOnly dirBoth "001" db1 (by decide) hread).1⟩

/-! ## Version-ordering helper lemmas -/

theorem digit_ne_underscore {c : Char} (h : c.isDigit = true) : c ≠ '_' := by
  intro h0
  rw [h0] at h
  exact absurd h (by decide)

theorem accepts_shape {f : String} (h : acceptsMigrationFile f = true) :
    ∃ a b c rest, f.data = a :: b :: c :: '_' :: rest ∧
      a.isDigit = true ∧ b.isDigit = true ∧ c.isDigit = true := by
  have h1 : matchesMigPattern f = true := by
    unfold acceptsMigrationFile at h
    rw [Bool.and_eq_true] at h
    exact h.1
  rcases matchesMigPattern_iff.mp h1 with ⟨a, b, c, rest, heq, ha, hb, hc, -⟩
  exact ⟨a, b, c, rest, heq, ha, hb, hc⟩

theorem versionOf_shape {f : String} {a b c : Char} {rest : List Char}
    (heq : f.data = a :: b :: c :: '_' :: rest)
    (ha : a.isDigit = true) (hb : b.isDigit = true) (hc : c.isDigit = true) :
    (versionOf f).data = [a, b, c] := by
  have h1 : (versionOf f).data = f.data.takeWhile (fun c => c ≠ '_') := rfl
  rw [h1, heq]
  simp [List.takeWhile_cons, digit_ne_underscore ha, digit_ne_underscore hb,
    digit_ne_underscore hc]

theorem listCharLe_prefix_mono : ∀ (xs ys r s : List Char), xs.length = ys.length →
    listCharLe (xs ++ r) (ys ++ s) = true → listCharLe xs ys = true := by
  intro xs
  induction xs with
  | nil =>
    intro ys r s hl _
    cases ys with
    | nil => rfl
    | cons y t => simp at hl
  | cons a as ih =>
    intro ys r s hl h
    cases ys with
    | nil => simp at hl
    | cons b bs =>
      simp only [List.cons_append] at h
      rw [listCharLe_cons] at h ⊢
      rcases lt_trichotomy a b with hab | rfl | hab
      · rw [if_pos hab]
      · rw [if_neg (lt_irrefl a), if_neg (lt_irrefl a)] at h ⊢
        have hl' : as.length = bs.length := by simpa using hl
        exact ih bs r s hl' h
      · rw [if_neg (lt_asymm hab), if_pos hab] at h
        exact absurd h (by simp)

theorem versionOf_mono {f g : String} (hf : acceptsMigrationFile f = true)
    (hg : acceptsMigrationFile g = true) (h : strLe f g = true) :
    strLe (versionOf f) (versionOf g) = true := by
  rcases accepts_shape hf with ⟨a, b, c, rest, heqf, ha, hb, hc⟩
  rcases accepts_shape hg with ⟨d, e2, k, rest2, heqg, hd, he, hk⟩
  unfold strLe at h ⊢
  rw [versionOf_shape heqf ha hb hc, versionOf_shape heqg hd he hk]
  rw [heqf, heqg] at h
  have h2 : listCharLe [a, b, c, '_'] [d, e2, k, '_'] = true :=
    listCharLe_prefix_mono [a, b, c, '_'] [d, e2, k, '_'] rest rest2 rfl h
  exact listCharLe_prefix_mono [a, b, c] [d, e2, k] ['_'] ['_'] rfl h2

theorem pendingOf_version_sorted {σ : Type} (hash : String → String) (dir : Dir)
    (db : DBState σ) :
    List.Sorted (· ≤ ·) ((pendingOf hash dir db).map (fun m => m.version)) := by
  have hs : List.Sorted (fun a b : String => strLe a b = true)
      ((dir.listing.filter acceptsMigrationFile).insertionSort
        (fun a b => strLe a b = true)) :=
    List.sorted_insertionSort _ _
  have hacc : ∀ f ∈ (dir.listing.filter acceptsMigrationFile).insertionSort
      (fun a b => strLe a b = true), acceptsMigrationFile f = true := by
    intro f hf
    exact (List.mem_filter.mp ((List.mem_insertionSort _).mp hf)).2
  have hver : List.Pairwise (fun a b : String => strLe (versionOf a) (versionOf b) = true)
      ((dir.listing.filter acceptsMigrationFile).insertionSort
        (fun a b => strLe a b = true)) :=
    List.Pairwise.imp_of_mem
      (fun {a b} haM hbM hab => versionOf_mono (hacc a haM) (hacc b hbM) hab) hs
  have hdefs : List.Pairwise (fun m1 m2 : MigrationDef => strLe m1.version m2.version = true)
      (getMigrationFiles hash dir) := by
    unfold getMigrationFiles
    exact List.Pairwise.map _ (fun a b h => h) hver
  have hpend : List.Pairwise (fun m1 m2 : MigrationDef => strLe m1.version m2.version = true)
      (pendingOf hash dir db) := by
    unfold pendingOf
    exact hdefs.filter _
  exact List.Pairwise.map _ (fun a b h => strLe_iff.mp h) hpend

/-- C3: `migrate` computes the pending set as exactly the registry
definitions whose version is not among the ledger versions, preserving the
registry's ascending version order (nondecreasing always, strictly ascending
whenever the pending versions are distinct); it processes the pending list
strictly sequentially, equal to `migrateLoop` over that list — so a lower
pending version's transaction commits before any higher one is begun — and
an empty pending set returns success with no state change. -/
theorem migrate_pending_spec {σ : Type} (runSql : String → σ → Option σ)
    (hash : String → String) (now : Nat) (dir : Dir) (db : DBState σ) :
    (∀ m, m ∈ pendingOf hash dir db ↔
        m ∈ getMigrationFiles hash dir ∧
          m.version ∉ db.ledger.map (fun e => e.version)) ∧
      List.Sorted (· ≤ ·) ((pendingOf hash dir db).map (fun m => m.version)) ∧
      (((pendingOf hash dir db).map (fun m => m.version)).Nodup →
        List.Sorted (· < ·) ((pendingOf hash dir db).map (fun m => m.version))) ∧
      migrate runSql hash now dir db =
        migrateLoop runSql now (pendingOf hash dir db) db ∧
      (pendingOf hash dir db = [] → migrate runSql hash now dir db = (db, none)) := by
  refine ⟨fun m => mem_pendingOf, pendingOf_version_sorted hash dir db, ?_, ?_, ?_⟩
  · intro hnd
    exact (pendingOf_version_sorted hash dir db).lt_of_le hnd
  · rw [migrate_eq]
    cases hp : pendingOf hash dir db with
    | nil => rfl
    | cons x t => rfl
  · intro h
    rw [migrate_eq, h]
    rfl

/-- Witness for C3 at concrete inputs: with `001` executed, the pending set
for `dirA` is exactly the `002` definition, its version list is strictly
sorted, and once everything is executed (`dbScrambled`) `migrate` returns
its input unchanged. -/
theorem migrate_pending_spec_witness :
    ((⟨"002", "second", "002_second.sql", "S2", "S2"⟩ : MigrationDef) ∈
        pendingOf hashId dirA db1) ∧
      List.Sorted (· < ·) ((pendingOf hashId dirA db1).map (fun m => m.version)) ∧
      migrate runLog hashId 9 dirA dbScrambled = (dbScrambled, none) := by
  have h1 := migrate_pending_spec runLog hashId 3 dirA db1
  have h2 := migrate_pending_spec runLog hashId 9 dirA dbScrambled
  refine ⟨?_, ?_, ?_⟩
  · exact (h1.1 _).mpr ⟨by decide, by decide⟩
  · exact h1.2.2.1 (by decide)
  · exact h2.2.2.2.2 (by decide)

end Migrate
